import Mathlib

/-!
Verification development for the SCDF turnout-deployment application
(`app.py`).  The application keeps a persisted table of assignments
(one row per occupied vehicle/position slot), an in-session draft
mapping (a Python dict of dicts, vehicle → position → name), and a
handful of operations: loading the table into the draft, upserting a
single slot, clearing the whole form, saving every draft slot back to
the table, and exporting the draft as CSV rows.

The embedding below models the `assignments` table as a list of rows
(in select order), the draft as an insertion-ordered association list
of association lists (mirroring Python dict semantics: updating an
existing key keeps its place, a new key is appended at the end), and
each operation as a pure function translated from the corresponding
code in `app.py`.
-/

namespace SMS

/-- A row of the `assignments` table:
`{id, vehicle_code, position_code, personnel_name, created_at, updated_at}`.
The application never supplies timestamp values in any payload, so the
timestamps are carried as optional values that the app code only ever
leaves untouched. -/
structure Assignment where
  id : String
  vehicle_code : String
  position_code : String
  personnel_name : String
  created_at : Option Nat
  updated_at : Option Nat
deriving DecidableEq

/-- The row filter used by every per-slot query in `update_position`:
`.eq('vehicle_code', vehicle).eq('position_code', position)`. -/
def matchesSlot (v p : String) (a : Assignment) : Bool :=
  decide (a.vehicle_code = v) && decide (a.position_code = p)

/-- The insert payload of `update_position`:
`{'id': str(uuid.uuid4()), 'vehicle_code': vehicle, 'position_code': position,
'personnel_name': name}` — no timestamp fields are supplied. -/
def mkAssignment (freshId v p name : String) : Assignment :=
  { id := freshId, vehicle_code := v, position_code := p, personnel_name := name,
    created_at := none, updated_at := none }

/-- `update_position(vehicle, position, name)` from `app.py` (success path):
select the slot's rows; if any exist, update their `personnel_name` when
`name` is non-empty, delete them when it is empty; otherwise insert one
new row when `name` is non-empty, and do nothing when it is empty.
`freshId` stands for the `uuid.uuid4()` value generated at the call. -/
def update_position (freshId v p name : String) (store : List Assignment) :
    List Assignment :=
  if (store.filter (matchesSlot v p)).isEmpty = false then
    if name ≠ "" then
      store.map (fun a => if matchesSlot v p a then { a with personnel_name := name } else a)
    else
      store.filter (fun a => !(matchesSlot v p a))
  else if name ≠ "" then
    store ++ [mkAssignment freshId v p name]
  else store

/-- Number of rows of the store that live at slot `(v, p)`. -/
def countSlot (v p : String) (store : List Assignment) : Nat :=
  (store.filter (matchesSlot v p)).length

/-- The data-model invariant: at most one assignment row per slot. -/
def atMostOnePerSlot (store : List Assignment) : Prop :=
  ∀ v p, countSlot v p store ≤ 1

/-- Pairwise form of the per-slot uniqueness invariant (decidable on
concrete stores). -/
def distinctSlots (store : List Assignment) : Prop :=
  store.Pairwise (fun a b => ¬(a.vehicle_code = b.vehicle_code ∧ a.position_code = b.position_code))

/-- A well-formed store: distinct slots, and no explicit empty-name row. -/
def wfStore (store : List Assignment) : Prop :=
  distinctSlots store ∧ ∀ a ∈ store, a.personnel_name ≠ ""

/- ### The draft (Python dict of dicts) -/

/-- Inner dict of one vehicle: position → name, in insertion order. -/
abbrev Inner := List (String × String)

/-- The draft `st.session_state.positions`: vehicle → inner dict, in
insertion order. -/
abbrev Draft := List (String × Inner)

/-- Python dict indexing (keys are unique in an actual dict; on a raw
association list this returns the first binding). -/
def lookupKey {α : Type} (k : String) : List (String × α) → Option α
  | [] => none
  | x :: rest => if x.1 = k then some x.2 else lookupKey k rest

/-- `inner[p] = n` on a Python dict: overwrite in place when the key is
present, append at the end otherwise. -/
def setInner (inner : Inner) (p n : String) : Inner :=
  match inner with
  | [] => [(p, n)]
  | x :: rest => if x.1 = p then (p, n) :: rest else x :: setInner rest p n

/-- `positions[v][p] = n` (creating `positions[v]` when absent, as
`on_select_change` and `clear_form` do). -/
def setSlotD (d : Draft) (v p n : String) : Draft :=
  match d with
  | [] => [(v, [(p, n)])]
  | x :: rest =>
    if x.1 = v then (x.1, setInner x.2 p n) :: rest
    else x :: setSlotD rest v p n

/-- One iteration of the grouping loop of `load_positions`:
`positions[item['vehicle_code']][item['position_code']] =
item['personnel_name']`. -/
def loadStep (d : Draft) (a : Assignment) : Draft :=
  setSlotD d a.vehicle_code a.position_code a.personnel_name

/-- `load_positions()` from `app.py`: read every `assignments` row and
group it into the dict of dicts, one fold step per row of the select
result. -/
def load_positions (store : List Assignment) : Draft :=
  store.foldl loadStep []

/-- `get_position_value(vehicle, position)` from `app.py`: dict lookup
with fallback to the empty string. -/
def get_position_value (d : Draft) (v p : String) : String :=
  ((lookupKey v d).bind (fun inner => lookupKey p inner)).getD ""

/-- The flattened iteration order of the draft, as used by the save and
export loops (`for vehicle in positions: for position, name in
positions[vehicle].items()`). -/
def draftSlots (d : Draft) : List (String × String × String) :=
  d.flatMap (fun x => x.2.map (fun y => (x.1, y.1, y.2)))

/-- The slots for which one save issues an `update_position` call, in
call order. -/
def saveCalls (d : Draft) : List (String × String) :=
  (draftSlots d).map (fun t => (t.1, t.2.1))

/- ### The fixed schema -/

/-- The fixed vehicle list used by `clear_form` and the page layout. -/
def vehicles : List String := ["PL181", "LF181E", "CPL181E", "A181D", "A182D"]

/-- `get_positions_for_vehicle(vehicle)` from `app.py`. -/
def get_positions_for_vehicle (v : String) : List String :=
  if v = "PL181" then ["RC", "DRC", "PO", "SC", "FF1", "FF2", "FF3"]
  else if v = "LF181E" then ["PO", "SC", "FF1", "FF2"]
  else if v = "CPL181E" then ["PO", "SC", "FF1", "FF2", "FF3", "FF4"]
  else if v = "A181D" ∨ v = "A182D" then ["PRM", "EMTD", "EMT1", "EMT2"]
  else []

/-- Every vehicle/position pair of the fixed schema. -/
def allSlots : List (String × String) :=
  vehicles.flatMap (fun v => (get_positions_for_vehicle v).map (fun p => (v, p)))

/- ### Reset All (`clear_form`) -/

/-- `position in st.session_state.positions[vehicle]`. -/
def innerHasKey (inner : Inner) (p : String) : Bool :=
  inner.any (fun y => decide (y.1 = p))

/-- `if vehicle not in st.session_state.positions:
st.session_state.positions[vehicle] = {}`. -/
def ensureVehicle (d : Draft) (v : String) : Draft :=
  if d.any (fun x => decide (x.1 = v)) then d else d ++ [(v, [])]

/-- One iteration of the inner loop of `clear_form`: when the position
is already present in the vehicle's dict, set its value to the empty
string, otherwise leave the dict alone. -/
def clearStep (v : String) (acc : Draft) (p : String) : Draft :=
  if innerHasKey ((lookupKey v acc).getD []) p then setSlotD acc v p "" else acc

/-- The inner loop of `clear_form` for one vehicle: for each schema
position already present in the vehicle's dict, set its value to the
empty string. -/
def clearVehiclePositions (d : Draft) (v : String) : Draft :=
  (get_positions_for_vehicle v).foldl (clearStep v) d

/-- One iteration of the outer loop of `clear_form`: make sure the
vehicle's dict exists, then clear its schema positions. -/
def clearVehicleStep (acc : Draft) (v : String) : Draft :=
  clearVehiclePositions (ensureVehicle acc v) v

/-- `clear_form()` from `app.py` (its effect on the positions dict; the
widget-state mirror is presentation-only).  It also sets
`is_changed = True`, modelled separately where needed. -/
def clear_form (d : Draft) : Draft :=
  vehicles.foldl clearVehicleStep d

/- ### Save ("Save Deployment" in `edit_page`) -/

/-- The save loop of `edit_page`, success path: one `update_position`
call per entry of the draft, in draft iteration order.  `gen` supplies
the `uuid.uuid4()` value used if the call at that slot inserts. -/
def savePure (gen : String → String → String) (slots : List (String × String × String))
    (store : List Assignment) : List Assignment :=
  slots.foldl (fun s t => update_position (gen t.1 t.2.1) t.1 t.2.1 t.2.2 s) store

/-- The save loop of `edit_page` with per-slot transport failures:
a failing `update_position` call raises inside the client, leaves the
table unchanged and returns `False`, which clears the aggregate
`success` flag; the loop continues with the remaining slots. -/
def saveResult (gen : String → String → String) (fails : String → String → Bool)
    (slots : List (String × String × String)) (store : List Assignment) :
    List Assignment × Bool :=
  slots.foldl (fun acc t =>
    if fails t.1 t.2.1 then (acc.1, false)
    else (update_position (gen t.1 t.2.1) t.1 t.2.1 t.2.2 acc.1, acc.2)) (store, true)

/-- `st.session_state.is_changed` after the save: the code resets it to
`False` only inside `if success:`. -/
def dirtyAfterSave (success dirty : Bool) : Bool :=
  if success then false else dirty

/- ### The database as a whole -/

/-- The persistence schema named by the collaborators: the
`assignments` table plus the `current_deployment` metadata record
(`{id, last_updated}`, at most one).  `app.py` only ever issues calls
against the `assignments` table. -/
structure DB where
  assignments : List Assignment
  current_deployment : Option (String × Nat)
deriving DecidableEq

/-- The whole "Save Deployment" action on the database: the per-slot
loop over the draft.  No statement in `edit_page` (or anywhere else in
`app.py`) touches the `current_deployment` table. -/
def save_db (gen : String → String → String) (fails : String → String → Bool)
    (d : Draft) (db : DB) : DB × Bool :=
  let r := saveResult gen fails (draftSlots d) db.assignments
  ({ db with assignments := r.1 }, r.2)

/- ### CSV export -/

/-- One row of the exported CSV. -/
structure CsvRow where
  vehicle : String
  position : String
  role_description : String
  name : String
deriving DecidableEq

/-- The `role_descriptions` dict of `app.py`. -/
def role_descriptions : List (String × String) :=
  [("RC", "ROTA COMMANDER"), ("DRC", "DEPUTY ROTA COMMANDER"),
   ("PO", "SECTION COMMANDER"), ("SC", "SECTION COMMANDER"),
   ("FF1", "FIREFIGHTER"), ("FF2", "FIREFIGHTER"),
   ("FF3", "FIREFIGHTER"), ("FF4", "FIREFIGHTER"),
   ("PRM", "PARAMEDIC"), ("EMTD", "DRIVER"),
   ("EMT1", "EMT"), ("EMT2", "EMT")]

/-- `role_descriptions.get(position, '')`. -/
def roleDescription (p : String) : String :=
  (lookupKey p role_descriptions).getD ""

/-- The "Export CSV" loop of `edit_page`: iterate the draft in its
iteration order and emit one row per non-empty slot value. -/
def export_csv (d : Draft) : List CsvRow :=
  d.flatMap (fun x => x.2.filterMap (fun y =>
    if y.2 ≠ "" then some ⟨x.1, y.1, roleDescription y.1, y.2⟩ else none))

/-- `order_position(position)` from `app.py`: the position display-rank
table, unlisted positions ranking 99.  (Defined in `app.py` but never
called by any other function there.) -/
def order_position (p : String) : Nat :=
  (lookupKey p
    [("RC", 0), ("DRC", 1), ("PO", 2), ("SC", 3), ("FF1", 4), ("FF2", 5),
     ("FF3", 6), ("FF4", 7), ("PRM", 0), ("EMTD", 1), ("EMT1", 2), ("EMT2", 3)]).getD 99

/- ### Draft well-formedness (what Python dicts guarantee) -/

/-- An inner dict has pairwise-distinct keys. -/
def wfInner (inner : Inner) : Prop := (inner.map Prod.fst).Nodup

/-- A draft is a dict of dicts: distinct vehicle keys, each inner dict
with distinct position keys. -/
def wfDraft (d : Draft) : Prop :=
  (d.map Prod.fst).Nodup ∧ ∀ x ∈ d, wfInner x.2

/-- Slot `(v, p)` has an entry somewhere in the draft. -/
def hasSlot (d : Draft) (v p : String) : Prop :=
  ∃ n, (v, p, n) ∈ draftSlots d

instance (i : Inner) : Decidable (wfInner i) := by
  unfold wfInner; infer_instance

instance (d : Draft) : Decidable (wfDraft d) := by
  unfold wfDraft wfInner; infer_instance

instance (s : List Assignment) : Decidable (distinctSlots s) := by
  unfold distinctSlots; infer_instance

/-! ### Basic lemmas about `countSlot` and the branches of `update_position` -/

theorem countSlot_nil (v p : String) : countSlot v p [] = 0 := rfl

theorem countSlot_cons (v p : String) (x : Assignment) (s : List Assignment) :
    countSlot v p (x :: s) = (if matchesSlot v p x then 1 else 0) + countSlot v p s := by
  simp only [countSlot, List.filter_cons]
  split
  · simp; omega
  · simp

theorem countSlot_append (v p : String) (s t : List Assignment) :
    countSlot v p (s ++ t) = countSlot v p s + countSlot v p t := by
  simp [countSlot, List.filter_append]

theorem filter_isEmpty_iff (v p : String) (s : List Assignment) :
    (s.filter (matchesSlot v p)).isEmpty = true ↔ countSlot v p s = 0 := by
  simp [countSlot, List.isEmpty_iff, List.length_eq_zero]

theorem matchesSlot_mk (v p g n v' p' : String) :
    matchesSlot v' p' (mkAssignment g v p n) = (decide (v = v') && decide (p = p')) := by
  simp [matchesSlot, mkAssignment]

theorem matchesSlot_iff (v p : String) (a : Assignment) :
    matchesSlot v p a = true ↔ a.vehicle_code = v ∧ a.position_code = p := by
  simp [matchesSlot]

theorem update_position_insert (g v p name : String) (s : List Assignment)
    (h1 : name ≠ "") (h2 : countSlot v p s = 0) :
    update_position g v p name s = s ++ [mkAssignment g v p name] := by
  have he : (s.filter (matchesSlot v p)).isEmpty = true := (filter_isEmpty_iff v p s).mpr h2
  simp [update_position, he, h1]

theorem update_position_update (g v p name : String) (s : List Assignment)
    (h1 : name ≠ "") (h2 : countSlot v p s ≠ 0) :
    update_position g v p name s
      = s.map (fun a => if matchesSlot v p a then { a with personnel_name := name } else a) := by
  have he : (s.filter (matchesSlot v p)).isEmpty = false := by
    cases hh : (s.filter (matchesSlot v p)).isEmpty
    · rfl
    · exact absurd ((filter_isEmpty_iff v p s).mp hh) h2
  simp [update_position, he, h1]

theorem update_position_delete (g v p name : String) (s : List Assignment)
    (h1 : name = "") (h2 : countSlot v p s ≠ 0) :
    update_position g v p name s = s.filter (fun a => !(matchesSlot v p a)) := by
  have he : (s.filter (matchesSlot v p)).isEmpty = false := by
    cases hh : (s.filter (matchesSlot v p)).isEmpty
    · rfl
    · exact absurd ((filter_isEmpty_iff v p s).mp hh) h2
  simp [update_position, he, h1]

theorem update_position_noop (g v p name : String) (s : List Assignment)
    (h1 : name = "") (h2 : countSlot v p s = 0) :
    update_position g v p name s = s := by
  have he : (s.filter (matchesSlot v p)).isEmpty = true := (filter_isEmpty_iff v p s).mpr h2
  simp [update_position, he, h1]

theorem countSlot_map_rename (v p n v' p' : String) (s : List Assignment) :
    countSlot v' p'
        (s.map (fun a => if matchesSlot v p a then { a with personnel_name := n } else a))
      = countSlot v' p' s := by
  induction s with
  | nil => rfl
  | cons a t ih =>
    have hm : matchesSlot v' p'
        (if matchesSlot v p a then { a with personnel_name := n } else a)
        = matchesSlot v' p' a := by
      split <;> simp [matchesSlot]
    simp [List.map_cons, countSlot_cons, hm, ih]

theorem countSlot_filter_not_self (v p : String) (s : List Assignment) :
    countSlot v p (s.filter (fun a => !(matchesSlot v p a))) = 0 := by
  induction s with
  | nil => rfl
  | cons a t ih =>
    by_cases hm : matchesSlot v p a = true
    · simpa [List.filter_cons, hm] using ih
    · have hm2 : matchesSlot v p a = false := by simpa using hm
      simp [List.filter_cons, hm2, countSlot_cons, ih]

theorem countSlot_filter_not_other (v p v' p' : String) (s : List Assignment)
    (h : ¬(v' = v ∧ p' = p)) :
    countSlot v' p' (s.filter (fun a => !(matchesSlot v p a))) = countSlot v' p' s := by
  induction s with
  | nil => rfl
  | cons a t ih =>
    by_cases hm : matchesSlot v p a = true
    · have hm2 : matchesSlot v' p' a = false := by
        rcases (by simpa [matchesSlot] using hm : a.vehicle_code = v ∧ a.position_code = p)
          with ⟨hv, hp⟩
        by_contra hc
        rcases (by simpa [matchesSlot] using hc :
          a.vehicle_code = v' ∧ a.position_code = p') with ⟨hv2, hp2⟩
        exact h ⟨hv2 ▸ hv ▸ rfl, hp2 ▸ hp ▸ rfl⟩
      simp [List.filter_cons, hm, countSlot_cons, hm2, ih]
    · have hm3 : matchesSlot v p a = false := by simpa using hm
      simp [List.filter_cons, hm3, countSlot_cons, ih]

theorem countSlot_update_position_other (g v p n v' p' : String) (s : List Assignment)
    (h : ¬(v' = v ∧ p' = p)) :
    countSlot v' p' (update_position g v p n s) = countSlot v' p' s := by
  by_cases h1 : n = ""
  · by_cases h2 : countSlot v p s = 0
    · rw [update_position_noop g v p n s h1 h2]
    · rw [update_position_delete g v p n s h1 h2]
      exact countSlot_filter_not_other v p v' p' s h
  · by_cases h2 : countSlot v p s = 0
    · rw [update_position_insert g v p n s h1 h2, countSlot_append]
      have hm : matchesSlot v' p' (mkAssignment g v p n) = false := by
        rw [matchesSlot_mk]
        by_contra hc
        rcases (by simpa using hc : v = v' ∧ p = p') with ⟨hv, hp⟩
        exact h ⟨hv.symm, hp.symm⟩
      simp [countSlot_cons, countSlot_nil, hm]
    · rw [update_position_update g v p n s h1 h2]
      exact countSlot_map_rename v p n v' p' s

theorem countSlot_update_position_self (g v p n : String) (s : List Assignment) :
    countSlot v p (update_position g v p n s)
      = if n = "" then 0 else if countSlot v p s = 0 then 1 else countSlot v p s := by
  by_cases h1 : n = ""
  · by_cases h2 : countSlot v p s = 0
    · rw [update_position_noop g v p n s h1 h2]; simp [h1, h2]
    · rw [update_position_delete g v p n s h1 h2]; simp [h1, countSlot_filter_not_self]
  · by_cases h2 : countSlot v p s = 0
    · rw [update_position_insert g v p n s h1 h2, countSlot_append]
      have hm : matchesSlot v p (mkAssignment g v p n) = true := by simp [matchesSlot_mk]
      simp [h1, h2, countSlot_cons, countSlot_nil, hm]
    · rw [update_position_update g v p n s h1 h2, countSlot_map_rename]
      simp [h1, h2]

/-! ### Membership in the draft -/

theorem draftSlots_nil : draftSlots [] = [] := rfl

theorem draftSlots_cons (x : String × Inner) (d : Draft) :
    draftSlots (x :: d) = x.2.map (fun y => (x.1, y.1, y.2)) ++ draftSlots d := by
  simp [draftSlots]

theorem draftSlots_append (d1 d2 : Draft) :
    draftSlots (d1 ++ d2) = draftSlots d1 ++ draftSlots d2 := by
  simp [draftSlots]

theorem mem_setInner_self (i : Inner) (p n : String) : (p, n) ∈ setInner i p n := by
  induction i with
  | nil => simp [setInner]
  | cons x rest ih =>
    by_cases h : x.1 = p
    · simp [setInner, h]
    · simp only [setInner, if_neg h]
      exact List.mem_cons_of_mem x ih

theorem mem_setInner_of_ne (i : Inner) (p n q m : String) (h : q ≠ p)
    (hm : (q, m) ∈ i) : (q, m) ∈ setInner i p n := by
  induction i with
  | nil => simp at hm
  | cons x rest ih =>
    rcases List.mem_cons.mp hm with h1 | h1
    · by_cases hx : x.1 = p
      · exact absurd (by rw [← h1] at hx; exact hx) h
      · simp only [setInner, if_neg hx]
        exact List.mem_cons.mpr (Or.inl h1)
    · by_cases hx : x.1 = p
      · simp only [setInner, if_pos hx]
        exact List.mem_cons_of_mem _ h1
      · simp only [setInner, if_neg hx]
        exact List.mem_cons_of_mem _ (ih h1)

theorem mem_setInner_inv (i : Inner) (p n q m : String)
    (hm : (q, m) ∈ setInner i p n) : (q = p ∧ m = n) ∨ (q, m) ∈ i := by
  induction i with
  | nil =>
    simp only [setInner, List.mem_singleton, Prod.mk.injEq] at hm
    exact Or.inl hm
  | cons x rest ih =>
    by_cases hx : x.1 = p
    · simp only [setInner, if_pos hx] at hm
      rcases List.mem_cons.mp hm with h1 | h1
      · rcases Prod.mk.injEq .. ▸ h1 with ⟨hq, hn⟩
        exact Or.inl ⟨hq, hn⟩
      · exact Or.inr (List.mem_cons_of_mem _ h1)
    · simp only [setInner, if_neg hx] at hm
      rcases List.mem_cons.mp hm with h1 | h1
      · exact Or.inr (List.mem_cons.mpr (Or.inl h1))
      · rcases ih h1 with h2 | h2
        · exact Or.inl h2
        · exact Or.inr (List.mem_cons_of_mem _ h2)

theorem setInner_unique (i : Inner) (p n m : String) (hwf : wfInner i)
    (hm : (p, m) ∈ setInner i p n) : m = n := by
  induction i with
  | nil => simpa [setInner] using hm
  | cons x rest ih =>
    have hwf2 : x.1 ∉ rest.map Prod.fst ∧ wfInner rest := by
      simpa [wfInner, List.nodup_cons] using hwf
    by_cases hx : x.1 = p
    · simp only [setInner, if_pos hx] at hm
      rcases List.mem_cons.mp hm with h1 | h1
      · exact (Prod.mk.injEq .. ▸ h1).2
      · exact absurd (List.mem_map.mpr ⟨(p, m), h1, rfl⟩) (hx ▸ hwf2.1)
    · simp only [setInner, if_neg hx] at hm
      rcases List.mem_cons.mp hm with h1 | h1
      · exact absurd ((Prod.mk.injEq .. ▸ h1).1.symm ▸ rfl : x.1 = p) hx
      · exact ih hwf2.2 h1

theorem mem_draftSlots_setSlotD_self (d : Draft) (v p n : String) :
    (v, p, n) ∈ draftSlots (setSlotD d v p n) := by
  induction d with
  | nil => simp [setSlotD, draftSlots]
  | cons x rest ih =>
    by_cases hx : x.1 = v
    · simp only [setSlotD, if_pos hx, draftSlots_cons]
      refine List.mem_append.mpr (Or.inl ?_)
      exact List.mem_map.mpr ⟨(p, n), mem_setInner_self x.2 p n, by rw [hx]⟩
    · simp only [setSlotD, if_neg hx, draftSlots_cons]
      exact List.mem_append.mpr (Or.inr ih)

theorem mem_setSlotD_of_ne (d : Draft) (v p n x y m : String)
    (h : ¬(x = v ∧ y = p)) (hm : (x, y, m) ∈ draftSlots d) :
    (x, y, m) ∈ draftSlots (setSlotD d v p n) := by
  induction d with
  | nil => simp [draftSlots] at hm
  | cons z rest ih =>
    rw [draftSlots_cons] at hm
    rcases List.mem_append.mp hm with h1 | h1
    · rcases List.mem_map.mp h1 with ⟨y2, hy2, hy2eq⟩
      rcases Prod.mk.injEq .. ▸ hy2eq with ⟨hz1, hrest⟩
      rcases Prod.mk.injEq .. ▸ hrest with ⟨hy1, hm1⟩
      by_cases hz : z.1 = v
      · simp only [setSlotD, if_pos hz, draftSlots_cons]
        refine List.mem_append.mpr (Or.inl (List.mem_map.mpr ⟨(y, m), ?_, by rw [hz1]⟩))
        have hyp : y ≠ p := by
          intro hc
          exact h ⟨by rw [← hz1, hz], hc⟩
        refine mem_setInner_of_ne z.2 p n y m hyp ?_
        rw [← hy1, ← hm1]
        exact hy2
      · simp only [setSlotD, if_neg hz, draftSlots_cons]
        exact List.mem_append.mpr (Or.inl h1)
    · by_cases hz : z.1 = v
      · simp only [setSlotD, if_pos hz, draftSlots_cons]
        exact List.mem_append.mpr (Or.inr h1)
      · simp only [setSlotD, if_neg hz, draftSlots_cons]
        exact List.mem_append.mpr (Or.inr (ih h1))

theorem mem_setSlotD_inv (d : Draft) (v p n x y m : String)
    (hm : (x, y, m) ∈ draftSlots (setSlotD d v p n)) :
    (x = v ∧ y = p ∧ m = n) ∨ (x, y, m) ∈ draftSlots d := by
  induction d with
  | nil =>
    simp only [setSlotD, draftSlots_cons, draftSlots_nil, List.append_nil, List.map_cons,
      List.map_nil, List.mem_singleton, Prod.mk.injEq] at hm
    exact Or.inl ⟨hm.1, hm.2.1, hm.2.2⟩
  | cons z rest ih =>
    by_cases hz : z.1 = v
    · simp only [setSlotD, if_pos hz, draftSlots_cons] at hm
      rcases List.mem_append.mp hm with h1 | h1
      · rcases List.mem_map.mp h1 with ⟨y2, hy2, hy2eq⟩
        rcases Prod.mk.injEq .. ▸ hy2eq with ⟨hz1, hrest⟩
        rcases Prod.mk.injEq .. ▸ hrest with ⟨hy1, hm1⟩
        rcases mem_setInner_inv z.2 p n y2.1 y2.2 hy2 with ⟨hq, hn⟩ | h2
        · exact Or.inl ⟨by rw [← hz1, hz], by rw [← hy1, hq], by rw [← hm1, hn]⟩
        · refine Or.inr ?_
          rw [draftSlots_cons]
          refine List.mem_append.mpr (Or.inl (List.mem_map.mpr ⟨y2, h2, ?_⟩))
          rw [← hz1, ← hy1, ← hm1]
      · exact Or.inr (by rw [draftSlots_cons]; exact List.mem_append.mpr (Or.inr h1))
    · simp only [setSlotD, if_neg hz, draftSlots_cons] at hm
      rcases List.mem_append.mp hm with h1 | h1
      · exact Or.inr (by rw [draftSlots_cons]; exact List.mem_append.mpr (Or.inl h1))
      · rcases ih h1 with h2 | h2
        · exact Or.inl h2
        · exact Or.inr (by rw [draftSlots_cons]; exact List.mem_append.mpr (Or.inr h2))

theorem hasSlot_setSlotD (d : Draft) (v p n x y : String) (h : hasSlot d x y) :
    hasSlot (setSlotD d v p n) x y := by
  obtain ⟨m, hm⟩ := h
  by_cases hxy : x = v ∧ y = p
  · rcases hxy with ⟨rfl, rfl⟩
    exact ⟨n, mem_draftSlots_setSlotD_self d x y n⟩
  · exact ⟨m, mem_setSlotD_of_ne d v p n x y m hxy hm⟩

/-- The vehicle of every draft entry is one of the draft's outer keys. -/
theorem vehicle_mem_keys (d : Draft) (x y m : String)
    (hm : (x, y, m) ∈ draftSlots d) : x ∈ d.map Prod.fst := by
  induction d with
  | nil => simp [draftSlots] at hm
  | cons z rest ih =>
    rw [draftSlots_cons] at hm
    rcases List.mem_append.mp hm with h1 | h1
    · rcases List.mem_map.mp h1 with ⟨y2, _, hy2eq⟩
      rcases Prod.mk.injEq .. ▸ hy2eq with ⟨hz1, _⟩
      simp [← hz1]
    · simp [ih h1]

theorem setSlotD_unique (d : Draft) (v p n m : String) (hwf : wfDraft d)
    (hm : (v, p, m) ∈ draftSlots (setSlotD d v p n)) : m = n := by
  induction d with
  | nil =>
    simpa [setSlotD, draftSlots] using hm
  | cons z rest ih =>
    have hkey : z.1 ∉ rest.map Prod.fst ∧ (rest.map Prod.fst).Nodup := by
      simpa [List.nodup_cons] using hwf.1
    have hwfrest : wfDraft rest :=
      ⟨hkey.2, fun x hx => hwf.2 x (List.mem_cons_of_mem z hx)⟩
    by_cases hz : z.1 = v
    · simp only [setSlotD, if_pos hz, draftSlots_cons] at hm
      rcases List.mem_append.mp hm with h1 | h1
      · rcases List.mem_map.mp h1 with ⟨y2, hy2, hy2eq⟩
        rcases Prod.mk.injEq .. ▸ hy2eq with ⟨_, hrest⟩
        rcases Prod.mk.injEq .. ▸ hrest with ⟨hy1, hm1⟩
        have hpair : (p, y2.2) = y2 := by rw [← hy1]
        rw [← hm1]
        refine setInner_unique z.2 p n y2.2 (hwf.2 z (List.mem_cons_self z rest)) ?_
        rw [hpair]
        exact hy2
      · exact absurd (hz ▸ vehicle_mem_keys rest v p m h1) hkey.1
    · simp only [setSlotD, if_neg hz, draftSlots_cons] at hm
      rcases List.mem_append.mp hm with h1 | h1
      · rcases List.mem_map.mp h1 with ⟨y2, _, hy2eq⟩
        rcases Prod.mk.injEq .. ▸ hy2eq with ⟨hz1, _⟩
        exact absurd hz1 hz
      · exact ih hwfrest h1

/-! ### Well-formedness of drafts (what Python dicts guarantee) -/

theorem keys_setInner (i : Inner) (p n : String) :
    (setInner i p n).map Prod.fst
      = if p ∈ i.map Prod.fst then i.map Prod.fst else i.map Prod.fst ++ [p] := by
  induction i with
  | nil => simp [setInner]
  | cons x rest ih =>
    by_cases hx : x.1 = p
    · simp [setInner, hx]
    · have hx2 : ¬p = x.1 := fun hc => hx hc.symm
      simp only [setInner, if_neg hx, List.map_cons, ih, List.mem_cons]
      by_cases hp : p ∈ rest.map Prod.fst
      · simp [hp, hx2]
      · simp [hp, hx2]

theorem wfInner_setInner (i : Inner) (p n : String) (h : wfInner i) :
    wfInner (setInner i p n) := by
  unfold wfInner at h ⊢
  rw [keys_setInner]
  by_cases hp : p ∈ i.map Prod.fst
  · rw [if_pos hp]; exact h
  · rw [if_neg hp]
    simp [List.nodup_append, h, hp]

theorem keys_setSlotD (d : Draft) (v p n : String) :
    (setSlotD d v p n).map Prod.fst
      = if v ∈ d.map Prod.fst then d.map Prod.fst else d.map Prod.fst ++ [v] := by
  induction d with
  | nil => simp [setSlotD]
  | cons x rest ih =>
    by_cases hx : x.1 = v
    · simp [setSlotD, hx]
    · have hx2 : ¬v = x.1 := fun hc => hx hc.symm
      simp only [setSlotD, if_neg hx, List.map_cons, ih, List.mem_cons]
      by_cases hv : v ∈ rest.map Prod.fst
      · simp [hv, hx2]
      · simp [hv, hx2]

theorem wfInner_mem_setSlotD (v p n : String) :
    ∀ d : Draft, (∀ x ∈ d, wfInner x.2) → ∀ x ∈ setSlotD d v p n, wfInner x.2 := by
  intro d
  induction d with
  | nil =>
    intro _ x hx
    simp only [setSlotD, List.mem_singleton] at hx
    subst hx
    simp [wfInner]
  | cons z rest ih =>
    intro h2 x hx
    by_cases hz : z.1 = v
    · simp only [setSlotD, if_pos hz] at hx
      rcases List.mem_cons.mp hx with hh | hh
      · subst hh
        exact wfInner_setInner z.2 p n (h2 z (List.mem_cons_self z rest))
      · exact h2 x (List.mem_cons_of_mem z hh)
    · simp only [setSlotD, if_neg hz] at hx
      rcases List.mem_cons.mp hx with hh | hh
      · subst hh
        exact h2 x (List.mem_cons_self x rest)
      · exact ih (fun w hw => h2 w (List.mem_cons_of_mem z hw)) x hh

theorem wfDraft_setSlotD (d : Draft) (v p n : String) (h : wfDraft d) :
    wfDraft (setSlotD d v p n) := by
  obtain ⟨h1, h2⟩ := h
  constructor
  · rw [keys_setSlotD]
    by_cases hv : v ∈ d.map Prod.fst
    · rw [if_pos hv]; exact h1
    · rw [if_neg hv]
      simp [List.nodup_append, h1, hv]
  · exact wfInner_mem_setSlotD v p n d h2

/-! ### Loading the store into the draft -/

theorem wfDraft_nil : wfDraft [] := ⟨List.nodup_nil, by simp⟩

theorem wfDraft_loadfold (s : List Assignment) :
    ∀ d : Draft, wfDraft d → wfDraft (s.foldl loadStep d) := by
  induction s with
  | nil => intro d h; exact h
  | cons a t ih =>
    intro d h
    rw [List.foldl_cons]
    exact ih _ (wfDraft_setSlotD d a.vehicle_code a.position_code a.personnel_name h)

theorem wfDraft_load (s : List Assignment) : wfDraft (load_positions s) :=
  wfDraft_loadfold s [] wfDraft_nil

theorem hasSlot_loadfold_mono (t : List Assignment) :
    ∀ (d : Draft) (x y : String), hasSlot d x y → hasSlot (t.foldl loadStep d) x y := by
  induction t with
  | nil => intro d x y h; exact h
  | cons b t2 ih =>
    intro d x y h
    rw [List.foldl_cons]
    exact ih _ x y (hasSlot_setSlotD d b.vehicle_code b.position_code b.personnel_name x y h)

theorem hasSlot_loadfold (a : Assignment) :
    ∀ (s : List Assignment) (d : Draft), a ∈ s →
      hasSlot (s.foldl loadStep d) a.vehicle_code a.position_code := by
  intro s
  induction s with
  | nil => intro d h; simp at h
  | cons b t ih =>
    intro d h
    rw [List.foldl_cons]
    rcases List.mem_cons.mp h with h1 | h1
    · subst h1
      exact hasSlot_loadfold_mono t _ _ _
        ⟨a.personnel_name, mem_draftSlots_setSlotD_self d _ _ _⟩
    · exact ih _ h1

theorem hasSlot_load (s : List Assignment) (a : Assignment) (ha : a ∈ s) :
    hasSlot (load_positions s) a.vehicle_code a.position_code :=
  hasSlot_loadfold a s [] ha

/-! ### Lookup and structure lemmas -/

theorem lookupKey_eq_of_mem_nodup {α : Type} (l : List (String × α)) (k : String) (x : α)
    (hnd : (l.map Prod.fst).Nodup) (hm : (k, x) ∈ l) : lookupKey k l = some x := by
  induction l with
  | nil => simp at hm
  | cons y rest ih =>
    have hnd2 : y.1 ∉ rest.map Prod.fst ∧ (rest.map Prod.fst).Nodup := by
      simpa [List.nodup_cons] using hnd
    rcases List.mem_cons.mp hm with h1 | h1
    · rw [← h1]
      simp [lookupKey]
    · have hky : ¬y.1 = k := by
        intro hc
        apply hnd2.1
        rw [hc]
        exact List.mem_map.mpr ⟨(k, x), h1, rfl⟩
      simp only [lookupKey, if_neg hky]
      exact ih hnd2.2 h1

theorem mem_draftSlots_structure (d : Draft) (x y m : String) :
    (x, y, m) ∈ draftSlots d ↔ ∃ i : Inner, (x, i) ∈ d ∧ (y, m) ∈ i := by
  unfold draftSlots
  rw [List.mem_flatMap]
  constructor
  · rintro ⟨z, hz, hmem⟩
    rcases List.mem_map.mp hmem with ⟨y2, hy2, hyeq⟩
    rcases Prod.mk.injEq .. ▸ hyeq with ⟨h1, hrest⟩
    rcases Prod.mk.injEq .. ▸ hrest with ⟨h2, h3⟩
    refine ⟨z.2, ?_, ?_⟩
    · rw [← h1]; exact hz
    · rw [← h2, ← h3]; exact hy2
  · rintro ⟨i, hi, hyi⟩
    exact ⟨(x, i), hi, List.mem_map.mpr ⟨(y, m), hyi, rfl⟩⟩

theorem not_hasSlot_of_not_innerHasKey (d : Draft) (v p : String) (hwf : wfDraft d)
    (h : innerHasKey ((lookupKey v d).getD []) p = false) : ¬hasSlot d v p := by
  rintro ⟨m, hm⟩
  rcases (mem_draftSlots_structure d v p m).mp hm with ⟨i, hi, hpi⟩
  have hl : lookupKey v d = some i := lookupKey_eq_of_mem_nodup d v i hwf.1 hi
  rw [hl, Option.getD_some] at h
  have ht : innerHasKey i p = true :=
    List.any_eq_true.mpr ⟨(p, m), hpi, by simp⟩
  rw [ht] at h
  cases h

/-! ### Clearing the form -/

theorem draftSlots_ensureVehicle (d : Draft) (v : String) :
    draftSlots (ensureVehicle d v) = draftSlots d := by
  unfold ensureVehicle
  split
  · rfl
  · rw [draftSlots_append]
    simp [draftSlots]

theorem wfDraft_ensureVehicle (d : Draft) (v : String) (h : wfDraft d) :
    wfDraft (ensureVehicle d v) := by
  unfold ensureVehicle
  split
  · exact h
  · next hc =>
    have hv : v ∉ d.map Prod.fst := by
      intro hvm
      rcases List.mem_map.mp hvm with ⟨x, hx, hx1⟩
      exact hc (List.any_eq_true.mpr ⟨x, hx, by simp [hx1]⟩)
    constructor
    · rw [List.map_append]
      simp [List.nodup_append, h.1, hv]
    · intro x hx
      rcases List.mem_append.mp hx with h1 | h1
      · exact h.2 x h1
      · have hx2 : x = (v, []) := by simpa using h1
        subst hx2
        simp [wfInner]

theorem wfDraft_clearStep (v : String) (d : Draft) (p : String) (h : wfDraft d) :
    wfDraft (clearStep v d p) := by
  unfold clearStep
  split
  · exact wfDraft_setSlotD d v p "" h
  · exact h

theorem hasSlot_clearStep (v : String) (d : Draft) (p x y : String) (h : hasSlot d x y) :
    hasSlot (clearStep v d p) x y := by
  unfold clearStep
  split
  · exact hasSlot_setSlotD d v p "" x y h
  · exact h

theorem cleared_clearStep (v : String) (d : Draft) (p x y : String)
    (h : ∀ m, (x, y, m) ∈ draftSlots d → m = "") :
    ∀ m, (x, y, m) ∈ draftSlots (clearStep v d p) → m = "" := by
  intro m hm
  unfold clearStep at hm
  split at hm
  · rcases mem_setSlotD_inv d v p "" x y m hm with ⟨_, _, h3⟩ | h2
    · exact h3
    · exact h m h2
  · exact h m hm

theorem cleared_clearStep_self (v : String) (d : Draft) (p : String) (hwf : wfDraft d) :
    ∀ m, (v, p, m) ∈ draftSlots (clearStep v d p) → m = "" := by
  intro m hm
  unfold clearStep at hm
  split at hm
  · exact setSlotD_unique d v p "" m hwf hm
  · next hc =>
    have hfalse : innerHasKey ((lookupKey v d).getD []) p = false := by
      cases hh : innerHasKey ((lookupKey v d).getD []) p
      · rfl
      · exact absurd hh hc
    exact absurd ⟨m, hm⟩ (not_hasSlot_of_not_innerHasKey d v p hwf hfalse)

theorem wfDraft_clearfold (v : String) (ps : List String) :
    ∀ d : Draft, wfDraft d → wfDraft (ps.foldl (clearStep v) d) := by
  induction ps with
  | nil => intro d h; exact h
  | cons q rest ih =>
    intro d h
    rw [List.foldl_cons]
    exact ih _ (wfDraft_clearStep v d q h)

theorem hasSlot_clearfold (v : String) (ps : List String) :
    ∀ (d : Draft) (x y : String), hasSlot d x y → hasSlot (ps.foldl (clearStep v) d) x y := by
  induction ps with
  | nil => intro d x y h; exact h
  | cons q rest ih =>
    intro d x y h
    rw [List.foldl_cons]
    exact ih _ x y (hasSlot_clearStep v d q x y h)

theorem cleared_clearfold_pres (v : String) (ps : List String) :
    ∀ (d : Draft) (x y : String), (∀ m, (x, y, m) ∈ draftSlots d → m = "") →
      ∀ m, (x, y, m) ∈ draftSlots (ps.foldl (clearStep v) d) → m = "" := by
  induction ps with
  | nil => intro d x y h; exact h
  | cons q rest ih =>
    intro d x y h
    rw [List.foldl_cons]
    exact ih _ x y (cleared_clearStep v d q x y h)

theorem cleared_clearfold (v : String) (ps : List String) :
    ∀ d : Draft, wfDraft d → ∀ p ∈ ps,
      ∀ m, (v, p, m) ∈ draftSlots (ps.foldl (clearStep v) d) → m = "" := by
  induction ps with
  | nil => intro d _ p hp; simp at hp
  | cons q rest ih =>
    intro d hwf p hp
    rw [List.foldl_cons]
    rcases List.mem_cons.mp hp with h1 | h1
    · subst h1
      exact cleared_clearfold_pres v rest (clearStep v d p) v p
        (cleared_clearStep_self v d p hwf)
    · exact ih (clearStep v d q) (wfDraft_clearStep v d q hwf) p h1

theorem wfDraft_clearVehicleStep (d : Draft) (v : String) (h : wfDraft d) :
    wfDraft (clearVehicleStep d v) :=
  wfDraft_clearfold v (get_positions_for_vehicle v) (ensureVehicle d v)
    (wfDraft_ensureVehicle d v h)

theorem hasSlot_clearVehicleStep (d : Draft) (v x y : String) (h : hasSlot d x y) :
    hasSlot (clearVehicleStep d v) x y := by
  unfold clearVehicleStep clearVehiclePositions
  apply hasSlot_clearfold
  unfold hasSlot
  rw [draftSlots_ensureVehicle]
  exact h

theorem cleared_clearVehicleStep_pres (d : Draft) (w x y : String)
    (h : ∀ m, (x, y, m) ∈ draftSlots d → m = "") :
    ∀ m, (x, y, m) ∈ draftSlots (clearVehicleStep d w) → m = "" := by
  unfold clearVehicleStep clearVehiclePositions
  apply cleared_clearfold_pres
  intro m hm
  rw [draftSlots_ensureVehicle] at hm
  exact h m hm

theorem cleared_vehiclefold_pres (ws : List String) :
    ∀ (d : Draft) (x y : String), (∀ m, (x, y, m) ∈ draftSlots d → m = "") →
      ∀ m, (x, y, m) ∈ draftSlots (ws.foldl clearVehicleStep d) → m = "" := by
  induction ws with
  | nil => intro d x y h; exact h
  | cons w rest ih =>
    intro d x y h
    rw [List.foldl_cons]
    exact ih _ x y (cleared_clearVehicleStep_pres d w x y h)

theorem hasSlot_vehiclefold (ws : List String) :
    ∀ (d : Draft) (x y : String), hasSlot d x y →
      hasSlot (ws.foldl clearVehicleStep d) x y := by
  induction ws with
  | nil => intro d x y h; exact h
  | cons w rest ih =>
    intro d x y h
    rw [List.foldl_cons]
    exact ih _ x y (hasSlot_clearVehicleStep d w x y h)

theorem clearfold_vehicles (ws : List String) :
    ∀ d : Draft, wfDraft d → ∀ v ∈ ws, ∀ p ∈ get_positions_for_vehicle v,
      ∀ m, (v, p, m) ∈ draftSlots (ws.foldl clearVehicleStep d) → m = "" := by
  induction ws with
  | nil => intro d _ v hv; simp at hv
  | cons w rest ih =>
    intro d hwf v hv p hp
    rw [List.foldl_cons]
    rcases List.mem_cons.mp hv with h1 | h1
    · subst h1
      have hstep : ∀ m, (v, p, m) ∈ draftSlots (clearVehicleStep d v) → m = "" := by
        unfold clearVehicleStep clearVehiclePositions
        exact cleared_clearfold v (get_positions_for_vehicle v) (ensureVehicle d v)
          (wfDraft_ensureVehicle d v hwf) p hp
      exact cleared_vehiclefold_pres rest (clearVehicleStep d v) v p hstep
    · exact ih (clearVehicleStep d w) (wfDraft_clearVehicleStep d w hwf) v h1 p hp

theorem clear_form_clears (d : Draft) (hwf : wfDraft d) (v : String) (hv : v ∈ vehicles)
    (p : String) (hp : p ∈ get_positions_for_vehicle v) :
    ∀ m, (v, p, m) ∈ draftSlots (clear_form d) → m = "" :=
  clearfold_vehicles vehicles d hwf v hv p hp

theorem hasSlot_clear_form (d : Draft) (x y : String) (h : hasSlot d x y) :
    hasSlot (clear_form d) x y :=
  hasSlot_vehiclefold vehicles d x y h

/-! ### The save loop with per-slot failures -/

theorem saveResult_foldl (gen : String → String → String) (fails : String → String → Bool)
    (L : List (String × String × String)) :
    ∀ (s : List Assignment) (b : Bool),
      L.foldl (fun acc t =>
          if fails t.1 t.2.1 then (acc.1, false)
          else (update_position (gen t.1 t.2.1) t.1 t.2.1 t.2.2 acc.1, acc.2)) (s, b)
        = (savePure gen (L.filter (fun t => !(fails t.1 t.2.1))) s,
           b && L.all (fun t => !(fails t.1 t.2.1))) := by
  induction L with
  | nil => intro s b; simp [savePure]
  | cons t rest ih =>
    intro s b
    by_cases hf : fails t.1 t.2.1 = true
    · simp only [List.foldl_cons, hf, if_pos rfl, List.filter_cons, List.all_cons]
      rw [ih]
      simp [hf]
    · have hf2 : fails t.1 t.2.1 = false := by simpa using hf
      simp only [List.foldl_cons, hf2, List.filter_cons, List.all_cons]
      rw [if_neg (by simp [hf2]), ih]
      simp [hf2, savePure]

theorem saveResult_spec (gen : String → String → String) (fails : String → String → Bool)
    (L : List (String × String × String)) (s : List Assignment) :
    saveResult gen fails L s
      = (savePure gen (L.filter (fun t => !(fails t.1 t.2.1))) s,
         L.all (fun t => !(fails t.1 t.2.1))) := by
  simpa [saveResult] using saveResult_foldl gen fails L s true

/-! ### Saving a fully cleared draft -/

theorem savePure_cons (gen : String → String → String) (t : String × String × String)
    (L : List (String × String × String)) (s : List Assignment) :
    savePure gen (t :: L) s
      = savePure gen L (update_position (gen t.1 t.2.1) t.1 t.2.1 t.2.2 s) := by
  simp [savePure]

theorem savePure_zero_pres (gen : String → String → String) (v p : String) :
    ∀ (L : List (String × String × String)) (s : List Assignment),
      (∀ t ∈ L, t.1 = v ∧ t.2.1 = p → t.2.2 = "") → countSlot v p s = 0 →
      countSlot v p (savePure gen L s) = 0 := by
  intro L
  induction L with
  | nil => intro s _ h0; exact h0
  | cons t rest ih =>
    intro s hall h0
    rw [savePure_cons]
    apply ih _ (fun t2 ht2 => hall t2 (List.mem_cons_of_mem t ht2))
    by_cases hteq : t.1 = v ∧ t.2.1 = p
    · have hv : t.2.2 = "" := hall t (List.mem_cons_self t rest) hteq
      rcases hteq with ⟨h1, h2⟩
      rw [h1, h2, hv, countSlot_update_position_self]
      simp
    · rw [countSlot_update_position_other (gen t.1 t.2.1) t.1 t.2.1 t.2.2 v p s
        (fun hc => hteq ⟨hc.1.symm, hc.2.symm⟩)]
      exact h0

theorem savePure_zero (gen : String → String → String) (v p : String) :
    ∀ (L : List (String × String × String)) (s : List Assignment),
      (∀ t ∈ L, t.1 = v ∧ t.2.1 = p → t.2.2 = "") → (v, p, "") ∈ L →
      countSlot v p (savePure gen L s) = 0 := by
  intro L
  induction L with
  | nil => intro s _ hmem; simp at hmem
  | cons t rest ih =>
    intro s hall hmem
    rw [savePure_cons]
    by_cases hteq : t.1 = v ∧ t.2.1 = p
    · apply savePure_zero_pres gen v p rest _
        (fun t2 ht2 => hall t2 (List.mem_cons_of_mem t ht2))
      have hv : t.2.2 = "" := hall t (List.mem_cons_self t rest) hteq
      rcases hteq with ⟨h1, h2⟩
      rw [h1, h2, hv, countSlot_update_position_self]
      simp
    · rcases List.mem_cons.mp hmem with h1 | h1
      · rw [← h1] at hteq
        simp at hteq
      · exact ih _ (fun t2 ht2 => hall t2 (List.mem_cons_of_mem t ht2)) h1

/-! ### Round trip: load, then save untouched -/

theorem atMostOne_of_distinct (s : List Assignment) (h : distinctSlots s) :
    atMostOnePerSlot s := by
  intro v p
  by_contra hc
  have hlen : 2 ≤ (s.filter (matchesSlot v p)).length := by
    unfold countSlot at hc; omega
  obtain ⟨x, y, rest, hfil⟩ : ∃ x y rest, s.filter (matchesSlot v p) = x :: y :: rest := by
    rcases hf : s.filter (matchesSlot v p) with _ | ⟨x, _ | ⟨y, r⟩⟩
    · rw [hf] at hlen; simp at hlen
    · rw [hf] at hlen; simp at hlen
    · exact ⟨x, y, r, rfl⟩
  have hpw : (s.filter (matchesSlot v p)).Pairwise
      (fun a b => ¬(a.vehicle_code = b.vehicle_code ∧ a.position_code = b.position_code)) :=
    List.Pairwise.sublist (List.filter_sublist s) h
  rw [hfil] at hpw
  have hxy := (List.pairwise_cons.mp hpw).1 y (List.mem_cons_self y rest)
  have hxmem : x ∈ s.filter (matchesSlot v p) := by
    rw [hfil]; exact List.mem_cons_self x _
  have hymem : y ∈ s.filter (matchesSlot v p) := by
    rw [hfil]; exact List.mem_cons_of_mem x (List.mem_cons_self y rest)
  rcases (matchesSlot_iff v p x).mp (List.mem_filter.mp hxmem).2 with ⟨hx1, hx2⟩
  rcases (matchesSlot_iff v p y).mp (List.mem_filter.mp hymem).2 with ⟨hy1, hy2⟩
  exact hxy ⟨by rw [hx1, hy1], by rw [hx2, hy2]⟩

theorem eq_of_filter_le_one (s : List Assignment) (q : Assignment → Bool)
    (h : (s.filter q).length ≤ 1) (a b : Assignment) (ha : a ∈ s) (hb : b ∈ s)
    (hqa : q a = true) (hqb : q b = true) : a = b := by
  have ha2 : a ∈ s.filter q := List.mem_filter.mpr ⟨ha, hqa⟩
  have hb2 : b ∈ s.filter q := List.mem_filter.mpr ⟨hb, hqb⟩
  rcases hf : s.filter q with _ | ⟨x, _ | ⟨y, r⟩⟩
  · rw [hf] at ha2; simp at ha2
  · rw [hf] at ha2 hb2
    simp at ha2 hb2
    rw [ha2, hb2]
  · rw [hf] at h; simp at h

/-- When the slot already holds exactly the value being written, the
update branch rewrites each matching row to itself and the store is
unchanged. -/
theorem update_position_id (g v p n : String) (s : List Assignment) (hn : n ≠ "")
    (hex : countSlot v p s ≠ 0)
    (hall : ∀ a ∈ s, matchesSlot v p a = true → a.personnel_name = n) :
    update_position g v p n s = s := by
  rw [update_position_update g v p n s hn hex]
  have hid : ∀ a ∈ s,
      (if matchesSlot v p a then { a with personnel_name := n } else a) = a := by
    intro a ha
    split
    · next hm =>
      have he := hall a ha hm
      cases a
      simp_all
    · rfl
  rw [List.map_congr_left hid]
  exact List.map_id' s

theorem savePure_id (gen : String → String → String) (s : List Assignment)
    (h1 : atMostOnePerSlot s) (h2 : ∀ a ∈ s, a.personnel_name ≠ "") :
    ∀ L : List (String × String × String),
      (∀ t ∈ L, ∃ a ∈ s, a.vehicle_code = t.1 ∧ a.position_code = t.2.1 ∧
        a.personnel_name = t.2.2) →
      savePure gen L s = s := by
  intro L
  induction L with
  | nil => intro _; rfl
  | cons t rest ih =>
    intro hL
    obtain ⟨a, ha, hv, hp, hn⟩ := hL t (List.mem_cons_self t rest)
    have hstep : update_position (gen t.1 t.2.1) t.1 t.2.1 t.2.2 s = s := by
      apply update_position_id
      · rw [← hn]; exact h2 a ha
      · have hmem : a ∈ s.filter (matchesSlot t.1 t.2.1) :=
          List.mem_filter.mpr ⟨ha, (matchesSlot_iff t.1 t.2.1 a).mpr ⟨hv, hp⟩⟩
        unfold countSlot
        intro hc
        rw [List.length_eq_zero] at hc
        rw [hc] at hmem
        simp at hmem
      · intro b hb hbm
        have hba : b = a := eq_of_filter_le_one s (matchesSlot t.1 t.2.1) (h1 t.1 t.2.1)
          b a hb ha hbm ((matchesSlot_iff t.1 t.2.1 a).mpr ⟨hv, hp⟩)
        rw [hba, hn]
    rw [savePure_cons, hstep]
    exact ih (fun t2 ht2 => hL t2 (List.mem_cons_of_mem t ht2))

theorem draftSlots_loadfold_sub (s : List Assignment) :
    ∀ (d : Draft) (v p n : String), (v, p, n) ∈ draftSlots (s.foldl loadStep d) →
      (v, p, n) ∈ draftSlots d ∨
      ∃ a ∈ s, a.vehicle_code = v ∧ a.position_code = p ∧ a.personnel_name = n := by
  induction s with
  | nil => intro d v p n hm; exact Or.inl hm
  | cons b t ih =>
    intro d v p n hm
    rw [List.foldl_cons] at hm
    rcases ih (loadStep d b) v p n hm with h1 | h1
    · rcases mem_setSlotD_inv d b.vehicle_code b.position_code b.personnel_name v p n h1 with
        ⟨e1, e2, e3⟩ | h2
      · exact Or.inr ⟨b, List.mem_cons_self b t, e1.symm, e2.symm, e3.symm⟩
      · exact Or.inl h2
    · obtain ⟨a, ha, hrest⟩ := h1
      exact Or.inr ⟨a, List.mem_cons_of_mem b ha, hrest⟩

/-- Loading a well-formed store into the draft and saving it untouched
leaves the store exactly as it was: every issued `update_position` call
rewrites the slot's single row to its present value. -/
theorem savePure_load_id (gen : String → String → String) (s : List Assignment)
    (h1 : distinctSlots s) (h2 : ∀ a ∈ s, a.personnel_name ≠ "") :
    savePure gen (draftSlots (load_positions s)) s = s := by
  apply savePure_id gen s (atMostOne_of_distinct s h1) h2
  intro t ht
  obtain ⟨t1, t2, t3⟩ := t
  rcases draftSlots_loadfold_sub s [] t1 t2 t3 ht with h | h
  · simp [draftSlots] at h
  · exact h

theorem mem_loadfold_of_ne (t : List Assignment) :
    ∀ (d : Draft) (x y m : String), (x, y, m) ∈ draftSlots d →
      (∀ c ∈ t, ¬(x = c.vehicle_code ∧ y = c.position_code)) →
      (x, y, m) ∈ draftSlots (t.foldl loadStep d) := by
  induction t with
  | nil => intro d x y m h _; exact h
  | cons b t2 ih =>
    intro d x y m h hall
    rw [List.foldl_cons]
    apply ih _ x y m ?_ (fun c hc => hall c (List.mem_cons_of_mem b hc))
    exact mem_setSlotD_of_ne d b.vehicle_code b.position_code b.personnel_name x y m
      (hall b (List.mem_cons_self b t2)) h

theorem mem_draftSlots_loadfold (a : Assignment) :
    ∀ (s : List Assignment) (d : Draft), a ∈ s → atMostOnePerSlot s →
      (a.vehicle_code, a.position_code, a.personnel_name)
        ∈ draftSlots (s.foldl loadStep d) := by
  intro s
  induction s with
  | nil => intro d h; simp at h
  | cons b t ih =>
    intro d hmem hone
    rw [List.foldl_cons]
    rcases List.mem_cons.mp hmem with h1 | h1
    · subst h1
      apply mem_loadfold_of_ne t (loadStep d a) _ _ _
        (mem_draftSlots_setSlotD_self d a.vehicle_code a.position_code a.personnel_name)
      intro c hc hcontra
      have h0 := hone a.vehicle_code a.position_code
      rw [countSlot_cons] at h0
      have hma : matchesSlot a.vehicle_code a.position_code a = true :=
        (matchesSlot_iff ..).mpr ⟨rfl, rfl⟩
      rw [if_pos hma] at h0
      have hct : countSlot a.vehicle_code a.position_code t = 0 := by omega
      have hcm : matchesSlot a.vehicle_code a.position_code c = true :=
        (matchesSlot_iff ..).mpr ⟨hcontra.1.symm, hcontra.2.symm⟩
      have hcmem : c ∈ t.filter (matchesSlot a.vehicle_code a.position_code) :=
        List.mem_filter.mpr ⟨hc, hcm⟩
      unfold countSlot at hct
      rw [List.length_eq_zero] at hct
      rw [hct] at hcmem
      simp at hcmem
    · apply ih (loadStep d b) h1
      intro v p
      have hvp := hone v p
      rw [countSlot_cons] at hvp
      split at hvp <;> omega

theorem get_position_value_eq (d : Draft) (v p n : String) (hwf : wfDraft d)
    (hm : (v, p, n) ∈ draftSlots d) : get_position_value d v p = n := by
  rcases (mem_draftSlots_structure d v p n).mp hm with ⟨i, hi, hpi⟩
  have hl : lookupKey v d = some i := lookupKey_eq_of_mem_nodup d v i hwf.1 hi
  have hwfi : (i.map Prod.fst).Nodup := hwf.2 (v, i) hi
  have hl2 : lookupKey p i = some n := lookupKey_eq_of_mem_nodup i p n hwfi hpi
  unfold get_position_value
  rw [hl]
  simp [hl2]

theorem mem_export_of_mem_draftSlots (d : Draft) (v p n : String)
    (h : (v, p, n) ∈ draftSlots d) (hn : n ≠ "") :
    CsvRow.mk v p (roleDescription p) n ∈ export_csv d := by
  rcases (mem_draftSlots_structure d v p n).mp h with ⟨i, hi, hpi⟩
  unfold export_csv
  apply List.mem_flatMap.mpr
  refine ⟨(v, i), hi, ?_⟩
  apply List.mem_filterMap.mpr
  refine ⟨(p, n), hpi, ?_⟩
  simp [hn]

/-! ### The set of slots a save writes, and the export rows -/

theorem saveCalls_eq (d : Draft) :
    saveCalls d = d.flatMap (fun x => x.2.map (fun y => (x.1, y.1))) := by
  unfold saveCalls draftSlots
  rw [List.map_flatMap]
  simp only [List.map_map]
  rfl

theorem saveCalls_nodup (d : Draft) (hwf : wfDraft d) : (saveCalls d).Nodup := by
  rw [saveCalls_eq]
  apply List.nodup_flatMap.mpr
  constructor
  · intro x hx
    have hmm : x.2.map (fun y => (x.1, y.1))
        = (x.2.map Prod.fst).map (fun q => (x.1, q)) := by
      simp [List.map_map, Function.comp]
    rw [hmm]
    apply List.Nodup.map ?_ (hwf.2 x hx)
    intro q1 q2 hq
    simpa using hq
  · have hp : d.Pairwise (fun a b => a.1 ≠ b.1) := List.pairwise_map.mp hwf.1
    apply List.Pairwise.imp ?_ hp
    intro a b hab
    intro z hz1 hz2
    rcases List.mem_map.mp hz1 with ⟨y1, _, hy1⟩
    rcases List.mem_map.mp hz2 with ⟨y2, _, hy2⟩
    have heq : (a.1, y1.1) = (b.1, y2.1) := hy1.trans hy2.symm
    exact hab (Prod.mk.injEq .. ▸ heq).1

theorem mem_saveCalls (d : Draft) (v p : String) :
    (v, p) ∈ saveCalls d ↔ ∃ n, (v, p, n) ∈ draftSlots d := by
  unfold saveCalls
  constructor
  · intro h
    rcases List.mem_map.mp h with ⟨t, ht, heq⟩
    obtain ⟨t1, t2, t3⟩ := t
    rcases Prod.mk.injEq .. ▸ heq with ⟨e1, e2⟩
    subst e1
    subst e2
    exact ⟨t3, ht⟩
  · rintro ⟨n, hn⟩
    exact List.mem_map.mpr ⟨(v, p, n), hn, rfl⟩

theorem filterMap_ite {α β : Type} (f : α → β) (P : α → Prop) [DecidablePred P]
    (L : List α) :
    L.filterMap (fun a => if P a then some (f a) else none)
      = (L.filter (fun a => decide (P a))).map f := by
  induction L with
  | nil => rfl
  | cons a t ih =>
    by_cases h : P a
    · simp [List.filterMap_cons, List.filter_cons, h, ih]
    · simp [List.filterMap_cons, List.filter_cons, h, ih]

theorem export_eq_filterMap (d : Draft) :
    export_csv d = (draftSlots d).filterMap
      (fun t => if t.2.2 ≠ "" then
        some (CsvRow.mk t.1 t.2.1 (roleDescription t.2.1) t.2.2) else none) := by
  unfold export_csv draftSlots
  induction d with
  | nil => rfl
  | cons x rest ih =>
    rw [List.flatMap_cons, List.flatMap_cons, List.filterMap_append, ← ih]
    congr 1
    rw [List.filterMap_map]
    rfl

/-! ### Claim theorems -/

/-- C1: `update_position(vehicle, position, name)` behaves by case analysis
on the store: with a non-empty name and no row at the slot it appends
exactly one new row (its id the freshly generated one, distinct from
every existing id); with a non-empty name and an existing row it only
rewrites the `personnel_name` of the slot's rows; with an empty name and
an existing row it deletes the slot's rows; with an empty name and no
row it leaves the store unchanged. -/
theorem update_position_cases (g v p name : String) (s : List Assignment)
    (hfresh : ∀ a ∈ s, a.id ≠ g) :
    (name ≠ "" → countSlot v p s = 0 →
      update_position g v p name s = s ++ [mkAssignment g v p name] ∧
      ∀ a ∈ s, a.id ≠ (mkAssignment g v p name).id) ∧
    (name ≠ "" → countSlot v p s ≠ 0 →
      update_position g v p name s
        = s.map (fun a => if matchesSlot v p a then { a with personnel_name := name } else a)) ∧
    (name = "" → countSlot v p s ≠ 0 →
      update_position g v p name s = s.filter (fun a => !(matchesSlot v p a))) ∧
    (name = "" → countSlot v p s = 0 →
      update_position g v p name s = s) := by
  refine ⟨fun h1 h2 => ⟨update_position_insert g v p name s h1 h2, ?_⟩,
    fun h1 h2 => update_position_update g v p name s h1 h2,
    fun h1 h2 => update_position_delete g v p name s h1 h2,
    fun h1 h2 => update_position_noop g v p name s h1 h2⟩
  intro a ha
  simpa [mkAssignment] using hfresh a ha

/-- Witness for C1 at a concrete store: upserting a non-empty name into
the one-row store updates that row's name in place. -/
theorem update_position_cases_w :
    (∀ a ∈ [Assignment.mk "id1" "A181D" "PRM" "WO2 AMIN" none none], a.id ≠ "id9") ∧
    update_position "id9" "A181D" "PRM" "SGT X"
        [Assignment.mk "id1" "A181D" "PRM" "WO2 AMIN" none none]
      = [Assignment.mk "id1" "A181D" "PRM" "SGT X" none none] := by
  refine ⟨by decide, ?_⟩
  have h := (update_position_cases "id9" "A181D" "PRM" "SGT X"
    [Assignment.mk "id1" "A181D" "PRM" "WO2 AMIN" none none] (by decide)).2.1
    (by decide) (by decide)
  rw [h]; decide

/-- C8: `update_position` preserves the at-most-one-assignment-per-slot
invariant, for every name; moreover the call leaves the row count of
every other slot unchanged (the insert branch runs only when no row
matched, and update/delete filter on the slot's two key columns). -/
theorem upsert_preserves_at_most_one (g v p name : String) (s : List Assignment)
    (h : atMostOnePerSlot s) :
    atMostOnePerSlot (update_position g v p name s) ∧
    ∀ v' p', ¬(v' = v ∧ p' = p) →
      countSlot v' p' (update_position g v p name s) = countSlot v' p' s := by
  constructor
  · intro v' p'
    by_cases hh : v' = v ∧ p' = p
    · rcases hh with ⟨rfl, rfl⟩
      rw [countSlot_update_position_self]
      have := h v' p'
      split
      · omega
      · split <;> omega
    · rw [countSlot_update_position_other g v p name v' p' s hh]
      exact h v' p'
  · intro v' p' hh
    exact countSlot_update_position_other g v p name v' p' s hh

/-- Witness for C8: inserting into a one-row store at a fresh slot keeps
every slot at no more than one row. -/
theorem upsert_preserves_at_most_one_w :
    atMostOnePerSlot [Assignment.mk "id1" "A181D" "PRM" "WO2 AMIN" none none] ∧
    atMostOnePerSlot (update_position "id9" "PL181" "RC" "LTA SHABIR"
      [Assignment.mk "id1" "A181D" "PRM" "WO2 AMIN" none none]) := by
  have h0 : atMostOnePerSlot [Assignment.mk "id1" "A181D" "PRM" "WO2 AMIN" none none] := by
    intro v p
    have := List.length_filter_le (matchesSlot v p)
      [Assignment.mk "id1" "A181D" "PRM" "WO2 AMIN" none none]
    simpa [countSlot] using this
  exact ⟨h0, (upsert_preserves_at_most_one "id9" "PL181" "RC" "LTA SHABIR" _ h0).1⟩

/-- C5 counterexample: the claim says a later save of the same slot
changes `updated_at`; but the update branch of `update_position` sends
only `{'personnel_name': name}`, so the row's `updated_at` (and
`created_at`) are left exactly as they were.  Concretely, updating the
slot `(A181D, PRM)` whose row carries `updated_at = some 3` leaves
`updated_at = some 3`. -/
theorem update_keeps_updated_at_cex :
    update_position "id9" "A181D" "PRM" "SGT X"
        [Assignment.mk "id1" "A181D" "PRM" "WO2 AMIN" (some 3) (some 3)]
      = [Assignment.mk "id1" "A181D" "PRM" "SGT X" (some 3) (some 3)] ∧
    ¬(∀ b ∈ update_position "id9" "A181D" "PRM" "SGT X"
        [Assignment.mk "id1" "A181D" "PRM" "WO2 AMIN" (some 3) (some 3)],
      b.updated_at ≠ (Assignment.mk "id1" "A181D" "PRM" "WO2 AMIN" (some 3) (some 3)).updated_at)
    := by decide

/-- C5 amended: a save's insert supplies no timestamps at all (the new
row carries none; in particular its `created_at` and `updated_at` are
equal because both are absent), and a save's update modifies only
`personnel_name` — every surviving row keeps the `id`, `created_at` and
`updated_at` of a row of the previous store. -/
theorem save_payload_timestamps (g v p name : String) (s : List Assignment)
    (h1 : name ≠ "") :
    ∀ a ∈ update_position g v p name s,
      (∃ b ∈ s, a.id = b.id ∧ a.created_at = b.created_at ∧ a.updated_at = b.updated_at) ∨
      (a = mkAssignment g v p name ∧ a.created_at = none ∧ a.updated_at = none ∧
        a.created_at = a.updated_at) := by
  intro a ha
  by_cases h2 : countSlot v p s = 0
  · rw [update_position_insert g v p name s h1 h2] at ha
    rcases List.mem_append.mp ha with hb | hb
    · exact Or.inl ⟨a, hb, rfl, rfl, rfl⟩
    · have : a = mkAssignment g v p name := by simpa using hb
      subst this
      exact Or.inr ⟨rfl, rfl, rfl, rfl⟩
  · rw [update_position_update g v p name s h1 h2] at ha
    rcases List.mem_map.mp ha with ⟨b, hb, hba⟩
    refine Or.inl ⟨b, hb, ?_⟩
    subst hba
    split <;> simp

/-- Witness for C5's amended statement: updating the one-row store keeps
the row's id and timestamps. -/
theorem save_payload_timestamps_w :
    ("SGT X" : String) ≠ "" ∧
    ∀ a ∈ update_position "id9" "A181D" "PRM" "SGT X"
        [Assignment.mk "id1" "A181D" "PRM" "WO2 AMIN" (some 3) (some 7)],
      (∃ b ∈ [Assignment.mk "id1" "A181D" "PRM" "WO2 AMIN" (some 3) (some 7)],
        a.id = b.id ∧ a.created_at = b.created_at ∧ a.updated_at = b.updated_at) ∨
      (a = mkAssignment "id9" "A181D" "PRM" "SGT X" ∧ a.created_at = none ∧
        a.updated_at = none ∧ a.created_at = a.updated_at) :=
  ⟨by decide, save_payload_timestamps "id9" "A181D" "PRM" "SGT X"
    [Assignment.mk "id1" "A181D" "PRM" "WO2 AMIN" (some 3) (some 7)] (by decide)⟩

/-- C7: when the transport fails for exactly one slot write of a save
(the middle entry `t0` of the draft iteration), the other writes are
still applied to the store exactly as a save of those slots alone, the
aggregate success flag is `false`, and the dirty flag survives the save
(the code clears it only under `if success:`). -/
theorem partial_failure_save (gen : String → String → String)
    (fails : String → String → Bool)
    (l1 l2 : List (String × String × String)) (t0 : String × String × String)
    (s : List Assignment)
    (h0 : fails t0.1 t0.2.1 = true)
    (h1 : ∀ t ∈ l1, fails t.1 t.2.1 = false)
    (h2 : ∀ t ∈ l2, fails t.1 t.2.1 = false) :
    (saveResult gen fails (l1 ++ t0 :: l2) s).1 = savePure gen (l1 ++ l2) s ∧
    (saveResult gen fails (l1 ++ t0 :: l2) s).2 = false ∧
    dirtyAfterSave (saveResult gen fails (l1 ++ t0 :: l2) s).2 true = true := by
  have hfilter : (l1 ++ t0 :: l2).filter (fun t => !(fails t.1 t.2.1)) = l1 ++ l2 := by
    rw [List.filter_append, List.filter_cons]
    have e1 : l1.filter (fun t => !(fails t.1 t.2.1)) = l1 :=
      List.filter_eq_self.mpr (fun t ht => by simp [h1 t ht])
    have e2 : l2.filter (fun t => !(fails t.1 t.2.1)) = l2 :=
      List.filter_eq_self.mpr (fun t ht => by simp [h2 t ht])
    simp [h0, e1, e2]
  have hall : (l1 ++ t0 :: l2).all (fun t => !(fails t.1 t.2.1)) = false := by
    simp [List.all_append, List.all_cons, h0]
  rw [saveResult_spec, hfilter, hall]
  exact ⟨rfl, rfl, rfl⟩

/-- C3: after a draft is initialized from the store (every store row at
a schema slot), "Reset All" (`clear_form`) followed by a save deletes
every loaded slot's rows: the store ends with zero rows at each slot it
previously held. -/
theorem reset_all_then_save_deletes (gen : String → String → String) (s : List Assignment)
    (hschema : ∀ a ∈ s, a.vehicle_code ∈ vehicles ∧
      a.position_code ∈ get_positions_for_vehicle a.vehicle_code) :
    ∀ a ∈ s, countSlot a.vehicle_code a.position_code
      (savePure gen (draftSlots (clear_form (load_positions s))) s) = 0 := by
  intro a ha
  have hwf : wfDraft (load_positions s) := wfDraft_load s
  obtain ⟨m, hm⟩ := hasSlot_clear_form (load_positions s) a.vehicle_code a.position_code
    (hasSlot_load s a ha)
  have hm0 : m = "" := clear_form_clears (load_positions s) hwf a.vehicle_code
    (hschema a ha).1 a.position_code (hschema a ha).2 m hm
  subst hm0
  apply savePure_zero gen a.vehicle_code a.position_code _ s ?_ hm
  intro t ht hcond
  obtain ⟨h1, h2⟩ := hcond
  apply clear_form_clears (load_positions s) hwf a.vehicle_code (hschema a ha).1
    a.position_code (hschema a ha).2 t.2.2
  rw [← h1, ← h2]
  exact ht

/-- Witness for C3: a two-row store (PL181/RC and A181D/PRM) loaded,
cleared and saved ends with zero rows at both slots. -/
theorem reset_all_then_save_deletes_w :
    (∀ a ∈ [Assignment.mk "id1" "PL181" "RC" "LTA SHABIR" none none,
            Assignment.mk "id2" "A181D" "PRM" "WO2 AMIN" none none],
      a.vehicle_code ∈ vehicles ∧
      a.position_code ∈ get_positions_for_vehicle a.vehicle_code) ∧
    ∀ a ∈ [Assignment.mk "id1" "PL181" "RC" "LTA SHABIR" none none,
           Assignment.mk "id2" "A181D" "PRM" "WO2 AMIN" none none],
      countSlot a.vehicle_code a.position_code
        (savePure (fun _ _ => "w")
          (draftSlots (clear_form (load_positions
            [Assignment.mk "id1" "PL181" "RC" "LTA SHABIR" none none,
             Assignment.mk "id2" "A181D" "PRM" "WO2 AMIN" none none])))
          [Assignment.mk "id1" "PL181" "RC" "LTA SHABIR" none none,
           Assignment.mk "id2" "A181D" "PRM" "WO2 AMIN" none none]) = 0 :=
  ⟨by decide, reset_all_then_save_deletes (fun _ _ => "w")
    [Assignment.mk "id1" "PL181" "RC" "LTA SHABIR" none none,
     Assignment.mk "id2" "A181D" "PRM" "WO2 AMIN" none none] (by decide)⟩

/-- C6: round trip — for every store satisfying the data-model
invariants (one row per slot, no explicit empty-name row), initializing
the draft from `load_positions` and saving immediately with no
intervening edit leaves the store exactly unchanged, and the save
succeeds: every issued write rewrites a slot to its current value, so
no write alters the store. -/
theorem round_trip_no_spurious_writes (gen : String → String → String)
    (s : List Assignment) (h1 : distinctSlots s)
    (h2 : ∀ a ∈ s, a.personnel_name ≠ "") :
    savePure gen (draftSlots (load_positions s)) s = s ∧
    saveResult gen (fun _ _ => false) (draftSlots (load_positions s)) s = (s, true) := by
  have hmain := savePure_load_id gen s h1 h2
  refine ⟨hmain, ?_⟩
  rw [saveResult_spec]
  simp [hmain]

/-- Witness for C6: the one-row store round-trips unchanged. -/
theorem round_trip_no_spurious_writes_w :
    distinctSlots [Assignment.mk "id1" "PL181" "RC" "LTA SHABIR" none none] ∧
    (∀ a ∈ [Assignment.mk "id1" "PL181" "RC" "LTA SHABIR" none none],
      a.personnel_name ≠ "") ∧
    savePure (fun _ _ => "w")
        (draftSlots (load_positions
          [Assignment.mk "id1" "PL181" "RC" "LTA SHABIR" none none]))
        [Assignment.mk "id1" "PL181" "RC" "LTA SHABIR" none none]
      = [Assignment.mk "id1" "PL181" "RC" "LTA SHABIR" none none] :=
  ⟨by decide, by decide,
    (round_trip_no_spurious_writes (fun _ _ => "w")
      [Assignment.mk "id1" "PL181" "RC" "LTA SHABIR" none none]
      (by decide) (by decide)).1⟩

/-- C10: no operation validates slots against the fixed schema.  Every
row of a well-formed store — whatever its `vehicle_code` and
`position_code` — is grouped into the draft by `load_positions`, is read
back by `get_position_value`, gets its own `update_position` call on
save (which leaves the untouched store unchanged, so the row is
re-upserted and retained), and is emitted by the CSV export with
`Role_Description` looked up with the empty string as default. -/
theorem no_schema_validation (gen : String → String → String) (s : List Assignment)
    (h1 : distinctSlots s) (h2 : ∀ a ∈ s, a.personnel_name ≠ "") :
    ∀ a ∈ s,
      (a.vehicle_code, a.position_code, a.personnel_name)
        ∈ draftSlots (load_positions s) ∧
      get_position_value (load_positions s) a.vehicle_code a.position_code
        = a.personnel_name ∧
      (a.vehicle_code, a.position_code) ∈ saveCalls (load_positions s) ∧
      savePure gen (draftSlots (load_positions s)) s = s ∧
      CsvRow.mk a.vehicle_code a.position_code (roleDescription a.position_code)
        a.personnel_name ∈ export_csv (load_positions s) ∧
      (lookupKey a.position_code role_descriptions = none →
        roleDescription a.position_code = "") := by
  intro a ha
  have hone := atMostOne_of_distinct s h1
  have hmem := mem_draftSlots_loadfold a s [] ha hone
  refine ⟨hmem, get_position_value_eq _ _ _ _ (wfDraft_load s) hmem, ?_, ?_, ?_, ?_⟩
  · exact List.mem_map.mpr
      ⟨(a.vehicle_code, a.position_code, a.personnel_name), hmem, rfl⟩
  · exact savePure_load_id gen s h1 h2
  · exact mem_export_of_mem_draftSlots _ _ _ _ hmem (h2 a ha)
  · intro hnone
    unfold roleDescription
    rw [hnone]
    rfl

/-- Witness for C10 at a row whose vehicle `X99` and position `ZZ` lie
outside the fixed schema: it is still loaded, saved back and exported,
with an empty role description. -/
theorem no_schema_validation_w :
    distinctSlots [Assignment.mk "id7" "X99" "ZZ" "SOMEONE" none none] ∧
    (∀ a ∈ [Assignment.mk "id7" "X99" "ZZ" "SOMEONE" none none],
      a.personnel_name ≠ "") ∧
    ∀ a ∈ [Assignment.mk "id7" "X99" "ZZ" "SOMEONE" none none],
      (a.vehicle_code, a.position_code, a.personnel_name)
        ∈ draftSlots (load_positions [Assignment.mk "id7" "X99" "ZZ" "SOMEONE" none none]) ∧
      get_position_value (load_positions [Assignment.mk "id7" "X99" "ZZ" "SOMEONE" none none])
        a.vehicle_code a.position_code = a.personnel_name ∧
      (a.vehicle_code, a.position_code)
        ∈ saveCalls (load_positions [Assignment.mk "id7" "X99" "ZZ" "SOMEONE" none none]) ∧
      savePure (fun _ _ => "w")
        (draftSlots (load_positions [Assignment.mk "id7" "X99" "ZZ" "SOMEONE" none none]))
        [Assignment.mk "id7" "X99" "ZZ" "SOMEONE" none none]
        = [Assignment.mk "id7" "X99" "ZZ" "SOMEONE" none none] ∧
      CsvRow.mk a.vehicle_code a.position_code (roleDescription a.position_code)
        a.personnel_name
        ∈ export_csv (load_positions [Assignment.mk "id7" "X99" "ZZ" "SOMEONE" none none]) ∧
      (lookupKey a.position_code role_descriptions = none →
        roleDescription a.position_code = "") :=
  ⟨by decide, by decide,
    no_schema_validation (fun _ _ => "w")
      [Assignment.mk "id7" "X99" "ZZ" "SOMEONE" none none] (by decide) (by decide)⟩

/-- C2 counterexample: the save loop iterates the draft mapping, not the
fixed schema.  With a store holding the single slot `(A181D, PRM)`, the
save issues exactly one `update_position` call — for that slot — while
the schema slot `(PL181, RC)` gets none.  (The fixed schema also has 25
slots, not the 22 the claim states.) -/
theorem save_not_schema_wide_cex :
    ("PL181", "RC") ∈ allSlots ∧
    allSlots.length = 25 ∧
    saveCalls (load_positions [Assignment.mk "id1" "A181D" "PRM" "WO2 AMIN" none none])
      = [("A181D", "PRM")] ∧
    ("PL181", "RC") ∉ saveCalls (load_positions
      [Assignment.mk "id1" "A181D" "PRM" "WO2 AMIN" none none]) := by
  decide

/-- C2 amended: a save calls `update_position` exactly once for every
slot present in the draft mapping, and never for a slot absent from it:
the call list has no duplicate slot, and a slot is called if and only if
the draft holds an entry for it. -/
theorem saveCalls_draft_slots (d : Draft) (hwf : wfDraft d) :
    (saveCalls d).Nodup ∧
    ∀ v p, ((v, p) ∈ saveCalls d ↔ ∃ n, (v, p, n) ∈ draftSlots d) :=
  ⟨saveCalls_nodup d hwf, fun v p => mem_saveCalls d v p⟩

/-- Witness for C2's amended statement on the draft loaded from a
two-row store. -/
theorem saveCalls_draft_slots_w :
    wfDraft (load_positions
      [Assignment.mk "id1" "A181D" "PRM" "WO2 AMIN" none none,
       Assignment.mk "id2" "PL181" "RC" "LTA SHABIR" none none]) ∧
    ((saveCalls (load_positions
        [Assignment.mk "id1" "A181D" "PRM" "WO2 AMIN" none none,
         Assignment.mk "id2" "PL181" "RC" "LTA SHABIR" none none])).Nodup ∧
      ∀ v p, ((v, p) ∈ saveCalls (load_positions
          [Assignment.mk "id1" "A181D" "PRM" "WO2 AMIN" none none,
           Assignment.mk "id2" "PL181" "RC" "LTA SHABIR" none none]) ↔
        ∃ n, (v, p, n) ∈ draftSlots (load_positions
          [Assignment.mk "id1" "A181D" "PRM" "WO2 AMIN" none none,
           Assignment.mk "id2" "PL181" "RC" "LTA SHABIR" none none]))) :=
  ⟨by decide, saveCalls_draft_slots _ (by decide)⟩

/-- C9 counterexample: the export emits rows in the draft's iteration
order, not in schema order.  Loading a store whose select result lists
the `A181D` row before the `PL181` row makes the export put the `A181D`
row first, although the fixed vehicle order places `PL181` (index 0)
before `A181D` (index 3); `order_position` ranks `RC` first and is never
consulted. -/
theorem export_order_cex :
    export_csv (load_positions
        [Assignment.mk "id1" "A181D" "PRM" "SGT A" none none,
         Assignment.mk "id2" "PL181" "RC" "LTA B" none none])
      = [CsvRow.mk "A181D" "PRM" "PARAMEDIC" "SGT A",
         CsvRow.mk "PL181" "RC" "ROTA COMMANDER" "LTA B"] ∧
    vehicles.indexOf "PL181" = 0 ∧
    vehicles.indexOf "A181D" = 3 ∧
    order_position "RC" = 0 := by
  decide

/-- C9 amended: the export yields exactly one row per non-empty slot of
the draft and excludes every empty slot, each row carrying the
`role_descriptions` lookup (default empty) — but in the draft mapping's
iteration order (vehicles and positions in first-insertion order), not
in the schema-defined order. -/
theorem export_rows_spec (d : Draft) (hwf : wfDraft d) :
    export_csv d = (draftSlots d).filterMap
        (fun t => if t.2.2 ≠ "" then
          some (CsvRow.mk t.1 t.2.1 (roleDescription t.2.1) t.2.2) else none) ∧
    ((export_csv d).map (fun r => (r.vehicle, r.position))).Nodup ∧
    ∀ r ∈ export_csv d, r.name ≠ "" ∧ (r.vehicle, r.position, r.name) ∈ draftSlots d ∧
      r.role_description = roleDescription r.position := by
  have heq := export_eq_filterMap d
  have hmap : export_csv d
      = ((draftSlots d).filter (fun t => decide (t.2.2 ≠ ""))).map
        (fun t => CsvRow.mk t.1 t.2.1 (roleDescription t.2.1) t.2.2) := by
    rw [heq, filterMap_ite]
  refine ⟨heq, ?_, ?_⟩
  · rw [hmap, List.map_map]
    have hsub : List.Sublist ((draftSlots d).filter (fun t => decide (t.2.2 ≠ "")))
        (draftSlots d) := List.filter_sublist _
    exact List.Nodup.sublist (List.Sublist.map (fun t => (t.1, t.2.1)) hsub)
      (saveCalls_nodup d hwf)
  · intro r hr
    rw [hmap] at hr
    rcases List.mem_map.mp hr with ⟨t, htf, hteq⟩
    have htmem := (List.mem_filter.mp htf).1
    have htne : t.2.2 ≠ "" := by simpa using (List.mem_filter.mp htf).2
    subst hteq
    exact ⟨htne, htmem, rfl⟩

/-- Witness for C9's amended statement on the draft loaded from a
two-row store. -/
theorem export_rows_spec_w :
    wfDraft (load_positions
      [Assignment.mk "id1" "A181D" "PRM" "SGT A" none none,
       Assignment.mk "id2" "PL181" "RC" "LTA B" none none]) ∧
    (export_csv (load_positions
        [Assignment.mk "id1" "A181D" "PRM" "SGT A" none none,
         Assignment.mk "id2" "PL181" "RC" "LTA B" none none])
      = (draftSlots (load_positions
          [Assignment.mk "id1" "A181D" "PRM" "SGT A" none none,
           Assignment.mk "id2" "PL181" "RC" "LTA B" none none])).filterMap
          (fun t => if t.2.2 ≠ "" then
            some (CsvRow.mk t.1 t.2.1 (roleDescription t.2.1) t.2.2) else none) ∧
      ((export_csv (load_positions
          [Assignment.mk "id1" "A181D" "PRM" "SGT A" none none,
           Assignment.mk "id2" "PL181" "RC" "LTA B" none none])).map
        (fun r => (r.vehicle, r.position))).Nodup ∧
      ∀ r ∈ export_csv (load_positions
          [Assignment.mk "id1" "A181D" "PRM" "SGT A" none none,
           Assignment.mk "id2" "PL181" "RC" "LTA B" none none]),
        r.name ≠ "" ∧ (r.vehicle, r.position, r.name) ∈ draftSlots (load_positions
          [Assignment.mk "id1" "A181D" "PRM" "SGT A" none none,
           Assignment.mk "id2" "PL181" "RC" "LTA B" none none]) ∧
        r.role_description = roleDescription r.position) :=
  ⟨by decide, export_rows_spec _ (by decide)⟩

/-- C4 counterexample: the claim requires the deployment-metadata record
to carry the save time after any save that stored an Assignment.  But
`edit_page`'s save issues only `update_position` calls: starting from a
database with no metadata record, saving a draft that writes one
assignment succeeds and still leaves `current_deployment` absent — no
`touchDeploymentTimestamp` call exists anywhere in `app.py`. -/
theorem save_no_metadata_touch_cex :
    (save_db (fun _ _ => "id9") (fun _ _ => false)
        (setSlotD [] "A181D" "PRM" "WO2 AMIN") (DB.mk [] none)).1.current_deployment
      = none ∧
    (save_db (fun _ _ => "id9") (fun _ _ => false)
        (setSlotD [] "A181D" "PRM" "WO2 AMIN") (DB.mk [] none)).1.assignments
      = [mkAssignment "id9" "A181D" "PRM" "WO2 AMIN"] ∧
    (save_db (fun _ _ => "id9") (fun _ _ => false)
        (setSlotD [] "A181D" "PRM" "WO2 AMIN") (DB.mk [] none)).2 = true := by
  decide

/-- C4 amended: after every save's slot writes have been attempted, no
further store call is made — the code contains no
`touchDeploymentTimestamp`, so every save leaves the deployment-metadata
record exactly as it was (in particular it is never created). -/
theorem save_preserves_metadata (gen : String → String → String)
    (fails : String → String → Bool) (d : Draft) (db : DB) :
    (save_db gen fails d db).1.current_deployment = db.current_deployment := rfl

/-- Witness for C7: three slot writes, the middle one failing — the
store reflects the outer two, the save reports failure, and the form
stays marked dirty. -/
theorem partial_failure_save_w :
    ((fun v _ => decide (v = "PL181")) : String → String → Bool) "PL181" "RC" = true ∧
    (saveResult (fun _ _ => "w") (fun v _ => decide (v = "PL181"))
        ([("A181D", "PRM", "WO2 AMIN")] ++ ("PL181", "RC", "LTA SHABIR")
          :: [("A182D", "EMTD", "SGT FAUZI")]) []).1
      = savePure (fun _ _ => "w")
          ([("A181D", "PRM", "WO2 AMIN")] ++ [("A182D", "EMTD", "SGT FAUZI")]) [] ∧
    (saveResult (fun _ _ => "w") (fun v _ => decide (v = "PL181"))
        ([("A181D", "PRM", "WO2 AMIN")] ++ ("PL181", "RC", "LTA SHABIR")
          :: [("A182D", "EMTD", "SGT FAUZI")]) []).2 = false := by
  have h := partial_failure_save (fun _ _ => "w") (fun v _ => decide (v = "PL181"))
    [("A181D", "PRM", "WO2 AMIN")] [("A182D", "EMTD", "SGT FAUZI")]
    ("PL181", "RC", "LTA SHABIR") [] (by decide) (by decide) (by decide)
  exact ⟨by decide, h.1, h.2.1⟩

end SMS
